import Mathlib

/-!
Verification of the page/journal exporter (`src/index.ts`).

The source is shallowly embedded:

* `BlockEntity` models a Logseq block: its `content` string and its
  `children`, where a child is either a real block (`some b`) or an
  unresolved `BlockUUIDTuple` placeholder (`none`, the `Array.isArray`
  branch of the TypeScript code).
* `buildMdBlock` / `buildMdChildren` embed the recursive renderer
  (src/index.ts lines 11-30); the sequential `+=` accumulation of the
  `forEach` loop is written as left-to-right string concatenation.
* `jsReplace` embeds JavaScript `String.prototype.replace` with a plain
  string pattern (which replaces only the first occurrence),
  `cleanupContent` the cleanup on line 84.
* `journalFilter`, `journalDayOrZero`, `sortJournals` embed the
  filter/sort pipeline (lines 53-66); ECMAScript `Array.prototype.sort`
  is a stable sort consistent with the comparator, which for a total
  preorder determines the result uniquely, so it is embedded as
  `List.mergeSort`.
* `civilFromDays`, `jsGetDay`, `jsGetFullYear`, `jsGetMonth`, `jsGetDate`
  model the host `Date` runtime on the proleptic Gregorian calendar used
  by ECMAScript, with dates as integer day counts since 1970-01-01;
  `startOfWeekMondayYYYYMMDD` embeds lines 40-50.
* `searchComma`, `jsSlice`, `reformatDate` embed the date reformatting on
  lines 91-93 with JavaScript `slice` index semantics.
* `buildMd` embeds lines 32-102 as a function of the fetched data and the
  current day; a JavaScript runtime error (reading a property of
  null/undefined) is modelled as `none`.
-/

/-- A Logseq block: `content` text and `children`, where a child is either
a real block (`some b`) or a `BlockUUIDTuple` placeholder (`none`). -/
inductive BlockEntity : Type where
  | mk (content : String) (children : List (Option BlockEntity))

def BlockEntity.content : BlockEntity → String
  | .mk c _ => c

def BlockEntity.children : BlockEntity → List (Option BlockEntity)
  | .mk _ cs => cs

/-- The line emitted for a block with non-empty content at a given indent
level: `indent * 2` spaces, then a dash and a space, then the content,
then a newline (src/index.ts line 16). -/
def mdLine (indent : Nat) (content : String) : String :=
  String.mk (List.replicate (indent * 2) ' ') ++ "- " ++ content ++ "\n"

mutual

/-- Embeds `buildMdBlock` (src/index.ts lines 11-30): a block with
non-empty content emits one line and indents its children one level
deeper; a block with empty content emits nothing and keeps the indent
level for its children. -/
def buildMdBlock : BlockEntity → Nat → String
  | .mk content children, indent =>
    (if content.length > 0 then mdLine indent content else "")
      ++ buildMdChildren children (if content.length > 0 then indent + 1 else indent)

/-- The `forEach` loop over `block.children`: real children are rendered
and concatenated in order, `BlockUUIDTuple` placeholders are skipped. -/
def buildMdChildren : List (Option BlockEntity) → Nat → String
  | [], _ => ""
  | some child :: rest, indent => buildMdBlock child indent ++ buildMdChildren rest indent
  | none :: rest, indent => buildMdChildren rest indent

end

/-- Does `pat` occur at the head of `s`? -/
def leadsWith : List Char → List Char → Bool
  | [], _ => true
  | _ :: _, [] => false
  | p :: ps, c :: cs => p == c && leadsWith ps cs

/-- Remove the first occurrence of `pat` from `s` (the list-of-characters
core of JavaScript `String.prototype.replace` with a string pattern and
empty replacement). -/
def removeOnceAux (pat : List Char) : List Char → List Char
  | [] => []
  | c :: s =>
    if leadsWith pat (c :: s) then (c :: s).drop pat.length
    else c :: removeOnceAux pat s

/-- Embeds `s.replace(pat, '')` for a plain string `pat`: JavaScript
replaces only the first occurrence. -/
def jsReplace (s pat : String) : String :=
  String.mk (removeOnceAux pat.data s.data)

/-- Models `String.prototype.trim`: remove whitespace from both ends. -/
def jsTrim (s : String) : String :=
  String.mk (((s.data.dropWhile Char.isWhitespace).reverse.dropWhile Char.isWhitespace).reverse)

/-- Embeds the cleanup on src/index.ts line 84:
`content.replace('#[[page]]', '').replace('[[page]]', '').trim()`. -/
def cleanupContent (page content : String) : String :=
  jsTrim (jsReplace (jsReplace content ("#[[" ++ page ++ "]]")) ("[[" ++ page ++ "]]"))

/-- A journal page entity: its display name and optional `journalDay`
(YYYYMMDD integer; `none` models an absent property). -/
structure PageEntity where
  originalName : String
  journalDay : Option Int

/-- One element of `getPageLinkedReferences`: a possibly-null page paired
with the blocks from that page. -/
abbrev LinkedReference := Option PageEntity × List BlockEntity

/-- Embeds the filter callback (src/index.ts lines 53-61): drop the entry
when the page is null or `journalDay` is absent or `0` (falsy), keep it
when `journalDay >= startOfWeekMondayYYYYMMDD`. -/
def journalFilter (startOfWeekMonday : Int) (entry : LinkedReference) : Bool :=
  match entry.1 with
  | none => false
  | some page =>
    match page.journalDay with
    | none => false
    | some d => if d = 0 then false else decide (d ≥ startOfWeekMonday)

/-- The sort key `b[0]?.journalDay ?? 0` (src/index.ts line 65). -/
def journalDayOrZero (entry : LinkedReference) : Int :=
  (entry.1.bind (fun p => p.journalDay)).getD 0

/-- Embeds the sort on src/index.ts lines 62-66: ECMAScript `sort` with
comparator `(b ?? 0) - (a ?? 0)` is the stable descending sort by
`journalDayOrZero`, embedded as a stable merge sort. -/
def sortJournals (l : List LinkedReference) : List LinkedReference :=
  l.mergeSort (fun a b => decide (journalDayOrZero b ≤ journalDayOrZero a))

/-- Convert a day count since 1970-01-01 to a proleptic Gregorian civil
date (year, month 1-12, day 1-31); models the calendar arithmetic of the
host `Date` runtime. -/
def civilFromDays (z : Int) : Int × Nat × Nat :=
  let zs := z + 719468
  let era := zs / 146097
  let doe := (zs - era * 146097).toNat
  let yoe := (doe - doe / 1460 + doe / 36524 - doe / 146096) / 365
  let y : Int := (yoe : Int) + era * 400
  let doy := doe - (365 * yoe + yoe / 4 - yoe / 100)
  let mp := (5 * doy + 2) / 153
  let d := doy - (153 * mp + 2) / 5 + 1
  let m := if mp < 10 then mp + 3 else mp - 9
  (if m ≤ 2 then y + 1 else y, m, d)

/-- Models `Date.prototype.getDay`: 0 = Sunday .. 6 = Saturday
(1970-01-01 was a Thursday). -/
def jsGetDay (z : Int) : Int := (z + 4) % 7

/-- Models `Date.prototype.getFullYear`. -/
def jsGetFullYear (z : Int) : Int := (civilFromDays z).1

/-- Models `Date.prototype.getMonth` (0-indexed month). -/
def jsGetMonth (z : Int) : Nat := (civilFromDays z).2.1 - 1

/-- Models `Date.prototype.getDate` (day of month). -/
def jsGetDate (z : Int) : Nat := (civilFromDays z).2.2

/-- Models `padStart(2, '0')`. -/
def padStart2 (s : String) : String :=
  if s.length ≥ 2 then s else if s.length = 1 then "0" ++ s else "00"

/-- The numeric value of a list of decimal digit characters. -/
def digitsToNat (l : List Char) : Nat :=
  l.foldl (fun n c => n * 10 + (c.toNat - 48)) 0

/-- Models `parseInt(s, 10)` on the well-formed decimal strings the code
builds (an optional leading minus followed by digits). -/
def jsParseInt (s : String) : Int :=
  match s.data with
  | '-' :: rest => -(digitsToNat rest : Int)
  | l => (digitsToNat l : Int)

/-- The number of days subtracted to reach the week start
(src/index.ts line 44): `(dayOfWeek + 6) % 7`. -/
def daysToSubtract (today : Int) : Int := (jsGetDay today + 6) % 7

/-- Embeds src/index.ts lines 40-50: the most recent Monday (today
included), encoded as `parseInt` of year concatenated with zero-padded
month and day. -/
def startOfWeekMondayYYYYMMDD (today : Int) : Int :=
  let startOfWeek := today - daysToSubtract today
  let year := jsGetFullYear startOfWeek
  let month := padStart2 (toString (jsGetMonth startOfWeek + 1))
  let day := padStart2 (toString (jsGetDate startOfWeek))
  jsParseInt (toString year ++ month ++ day)

/-- Models `name.search(',')`: index of the first comma, `-1` if none. -/
def searchComma (s : String) : Int :=
  match s.data.findIdx? (fun c => c == ',') with
  | some i => (i : Int)
  | none => -1

/-- Models JavaScript `String.prototype.slice` with its negative-index
and clamping semantics. -/
def jsSlice (s : String) (start stop : Int) : String :=
  let len : Int := (s.data.length : Int)
  let a : Nat := (if start < 0 then max (len + start) 0 else min start len).toNat
  let b : Nat := (if stop < 0 then max (len + stop) 0 else min stop len).toNat
  String.mk ((s.data.drop a).take (b - a))

/-- Embeds src/index.ts lines 91-93:
`name.slice(0, index - 2) + name.slice(index)` where `index` is the
position of the first comma (or `-1`). -/
def reformatDate (name : String) : String :=
  let index := searchComma name
  jsSlice name 0 (index - 2) ++ jsSlice name index ((name.data.length : Int))

/-- Embeds the body of the map over `journalBlocks`
(src/index.ts lines 76-97) for one `[header, journals]` pair: clean each
top-level block's content, render it, join with a newline, and prepend the
reformatted date in bold. Reading `originalName` of a null header would
throw in JavaScript, modelled as `none`. -/
def renderJournalGroup (page : String) (blocks : LinkedReference) : Option String :=
  match blocks.1 with
  | none => none
  | some header =>
    let md_journals := String.intercalate "\n"
      (blocks.2.map (fun block =>
        buildMdBlock (BlockEntity.mk (cleanupContent page block.content) block.children) 0))
    let date := reformatDate header.originalName
    some ("**" ++ date ++ "**\n" ++ md_journals)

/-- Left-to-right effectful map for `Option`: a `none` anywhere (a thrown
JavaScript error inside the `map` callback) aborts the whole map. -/
def traverseOption (f : α → Option β) : List α → Option (List β)
  | [] => some []
  | x :: xs =>
    match f x, traverseOption f xs with
    | some y, some ys => some (y :: ys)
    | _, _ => none

/-- Embeds `buildMd` (src/index.ts lines 32-102) as a function of the
fetched page blocks, the fetched linked references (`none` models a
null/absent result) and the current day. The optional chaining on line 53
leaves `journalBlocks` undefined when `linkedReferences` is null, and the
unconditional `.map` on line 76 then throws: modelled by returning
`none`. -/
def buildMd (page : String) (pageBlocks : List BlockEntity)
    (linkedReferences : Option (List LinkedReference)) (today : Int) : Option String :=
  let startOfWeekMonday := startOfWeekMondayYYYYMMDD today
  let journalBlocks := linkedReferences.map (fun refs =>
    sortJournals (refs.filter (journalFilter startOfWeekMonday)))
  let md_content := String.intercalate "\n" (pageBlocks.map (fun block => buildMdBlock block 0))
  let md_content := md_content ++ "----\n" ++ "## Backlog\n"
  match journalBlocks with
  | none => none
  | some js =>
    match traverseOption (renderJournalGroup page) js with
    | none => none
    | some sections => some (md_content ++ String.intercalate "\n" sections)

/-! Specification-side definitions, used to state the claims. -/

mutual

/-- The number of blocks in a tree (the block itself and all descendants
reachable without passing through a placeholder) with non-empty content. -/
def countNonEmpty : BlockEntity → Nat
  | .mk content children =>
    (if content.length > 0 then 1 else 0) + countNonEmptyChildren children

def countNonEmptyChildren : List (Option BlockEntity) → Nat
  | [] => 0
  | some child :: rest => countNonEmpty child + countNonEmptyChildren rest
  | none :: rest => countNonEmptyChildren rest

end

mutual

/-- Does no content string anywhere in the tree contain a newline? -/
def noNewlines : BlockEntity → Bool
  | .mk content children =>
    content.data.all (fun c => !(c == '\n')) && noNewlinesChildren children

def noNewlinesChildren : List (Option BlockEntity) → Bool
  | [] => true
  | some child :: rest => noNewlines child && noNewlinesChildren rest
  | none :: rest => noNewlinesChildren rest

end

/-- The number of newline characters in a string; since every line the
renderer emits is newline-terminated, this is its line count. -/
def countLines (s : String) : Nat := s.data.count '\n'

mutual

/-- The sequence of (indent level, content) pairs of the lines the
renderer emits for a tree, in emission order. -/
def emitBlock : BlockEntity → Nat → List (Nat × String)
  | .mk content children, indent =>
    (if content.length > 0 then [(indent, content)] else [])
      ++ emitChildren children (if content.length > 0 then indent + 1 else indent)

def emitChildren : List (Option BlockEntity) → Nat → List (Nat × String)
  | [], _ => []
  | some child :: rest, indent => emitBlock child indent ++ emitChildren rest indent
  | none :: rest, indent => emitChildren rest indent

end

/-- Concatenation of a list of strings, in order. -/
def joinStr : List String → String
  | [] => ""
  | s :: rest => s ++ joinStr rest

/-- Navigate from a block along a path of child indices; an index that is
out of range or hits a placeholder yields `none`. -/
def getNode : BlockEntity → List Nat → Option BlockEntity
  | b, [] => some b
  | b, j :: p =>
    match b.children[j]? with
    | some (some child) => getNode child p
    | _ => none

/-- The number of blocks with non-empty content strictly above the end of
a path (the non-empty ancestors of the node the path reaches). -/
def depthNonEmpty : BlockEntity → List Nat → Nat
  | _, [] => 0
  | b, j :: p =>
    (if b.content.length > 0 then 1 else 0) +
      match b.children[j]? with
      | some (some child) => depthNonEmpty child p
      | _ => 0

/-- Does `pat` occur anywhere (as a contiguous run) in `s`? -/
def containsSeq (pat : List Char) : List Char → Bool
  | [] => leadsWith pat []
  | c :: s => leadsWith pat (c :: s) || containsSeq pat s

/-! Concrete data for the end-to-end example of the spec: a primary
outline of two top-level blocks "A" and "B" (B has one child "B1"), and
one linked reference from the journal page "January 2nd, 2024"
(journalDay 20240102) with the single block "Task #[[Page]]".
Day 19724 is Tuesday 2024-01-02, so the week starts Monday 2024-01-01 and
the reference is retained. -/

def c1Blocks : List BlockEntity := [.mk "A" [], .mk "B" [some (.mk "B1" [])]]

def c1Refs : List LinkedReference :=
  [(some ⟨"January 2nd, 2024", some 20240102⟩, [.mk "Task #[[Page]]" []])]

example : buildMdBlock (.mk "A" []) 0 = "- A\n" := by decide

example : buildMdBlock (.mk "B" [some (.mk "B1" [])]) 0 = "- B\n  - B1\n" := by decide

example : cleanupContent "Foo" "Hello #[[Foo]] world [[Foo]] !" = "Hello  world  !" := by decide

example : civilFromDays 0 = (1970, 1, 1) := by decide

example : civilFromDays 19723 = (2024, 1, 1) := by decide

example : jsGetDay 19724 = 2 := by decide

example : startOfWeekMondayYYYYMMDD 19724 = 20240101 := by decide

example : reformatDate "October 26th, 2023" = "October 26, 2023" := by decide

example : reformatDate "January 2nd, 2024" = "January 2, 2024" := by decide

example : reformatDate "2024" = "24" := by decide

/-! Helper lemmas. -/

theorem strMk_append (l1 l2 : List Char) :
    String.mk l1 ++ String.mk l2 = String.mk (l1 ++ l2) := rfl

theorem endsNL_append {a b : String} (ha : a = "" ∨ ∃ t, a = t ++ "\n")
    (hb : b = "" ∨ ∃ t, b = t ++ "\n") : a ++ b = "" ∨ ∃ t, a ++ b = t ++ "\n" := by
  rcases hb with rfl | ⟨t, rfl⟩
  · rcases ha with rfl | ⟨t, rfl⟩
    · left; rfl
    · right; exact ⟨t, by rw [String.append_empty]⟩
  · right; exact ⟨a ++ t, by rw [String.append_assoc]⟩

mutual

theorem endsNL_block : ∀ (b : BlockEntity) (i : Nat),
    buildMdBlock b i = "" ∨ ∃ t, buildMdBlock b i = t ++ "\n"
  | .mk content children, i => by
    have hc := endsNL_children children (if content.length > 0 then i + 1 else i)
    rw [buildMdBlock]
    apply endsNL_append _ hc
    by_cases h : content.length > 0
    · rw [if_pos h]
      exact Or.inr ⟨String.mk (List.replicate (i * 2) ' ') ++ "- " ++ content, rfl⟩
    · rw [if_neg h]
      exact Or.inl rfl

theorem endsNL_children : ∀ (cs : List (Option BlockEntity)) (i : Nat),
    buildMdChildren cs i = "" ∨ ∃ t, buildMdChildren cs i = t ++ "\n"
  | [], _ => Or.inl rfl
  | some child :: rest, i => by
    have h1 := endsNL_block child i
    have h2 := endsNL_children rest i
    rw [buildMdChildren]
    exact endsNL_append h1 h2
  | none :: rest, i => by
    have h2 := endsNL_children rest i
    rw [buildMdChildren]
    exact h2

end

@[simp] theorem content_mk (c : String) (cs : List (Option BlockEntity)) :
    (BlockEntity.mk c cs).content = c := rfl

@[simp] theorem children_mk (c : String) (cs : List (Option BlockEntity)) :
    (BlockEntity.mk c cs).children = cs := rfl

theorem countLines_append (s t : String) :
    countLines (s ++ t) = countLines s + countLines t := by
  simp [countLines, String.data_append, List.count_append]

theorem countLines_mdLine (i : Nat) (c : String)
    (h : c.data.all (fun ch => !(ch == '\n')) = true) : countLines (mdLine i c) = 1 := by
  unfold mdLine
  rw [countLines_append, countLines_append, countLines_append]
  have h1 : countLines (String.mk (List.replicate (i * 2) ' ')) = 0 := by
    simp [countLines, List.count_replicate]
  have h2 : countLines "- " = 0 := rfl
  have h3 : countLines c = 0 := by
    rw [countLines]
    rw [List.count_eq_zero]
    intro hmem
    have := List.all_eq_true.mp h '\n' hmem
    simp at this
  have h4 : countLines "\n" = 1 := rfl
  omega

mutual

theorem countLines_block : ∀ (b : BlockEntity) (i : Nat), noNewlines b = true →
    countLines (buildMdBlock b i) = countNonEmpty b
  | .mk content children, i, h => by
    rw [noNewlines, Bool.and_eq_true] at h
    have hc := countLines_children children (if content.length > 0 then i + 1 else i) h.2
    rw [buildMdBlock, countLines_append, countNonEmpty, hc]
    by_cases hl : content.length > 0
    · rw [if_pos hl, if_pos hl, countLines_mdLine i content h.1]
    · rw [if_neg hl, if_neg hl]
      rfl

theorem countLines_children : ∀ (cs : List (Option BlockEntity)) (i : Nat),
    noNewlinesChildren cs = true →
    countLines (buildMdChildren cs i) = countNonEmptyChildren cs
  | [], _, _ => rfl
  | some child :: rest, i, h => by
    rw [noNewlinesChildren, Bool.and_eq_true] at h
    rw [buildMdChildren, countLines_append, countNonEmptyChildren,
      countLines_block child i h.1, countLines_children rest i h.2]
  | none :: rest, i, h => by
    rw [noNewlinesChildren] at h
    rw [buildMdChildren, countNonEmptyChildren, countLines_children rest i h]

end

theorem joinStr_append (l1 l2 : List String) :
    joinStr (l1 ++ l2) = joinStr l1 ++ joinStr l2 := by
  induction l1 with
  | nil => rw [List.nil_append, joinStr, String.empty_append]
  | cons s rest ih => rw [List.cons_append, joinStr, joinStr, ih, String.append_assoc]

mutual

theorem build_emit_block : ∀ (b : BlockEntity) (i : Nat),
    buildMdBlock b i = joinStr ((emitBlock b i).map (fun q => mdLine q.1 q.2))
  | .mk content children, i => by
    have hc := build_emit_children children (if content.length > 0 then i + 1 else i)
    rw [buildMdBlock, emitBlock, List.map_append, joinStr_append, ← hc]
    by_cases hl : content.length > 0
    · rw [if_pos hl, if_pos hl, if_pos hl]
      simp [joinStr, String.append_empty]
    · rw [if_neg hl, if_neg hl, if_neg hl]
      rfl

theorem build_emit_children : ∀ (cs : List (Option BlockEntity)) (i : Nat),
    buildMdChildren cs i = joinStr ((emitChildren cs i).map (fun q => mdLine q.1 q.2))
  | [], _ => rfl
  | some child :: rest, i => by
    rw [buildMdChildren, emitChildren, List.map_append, joinStr_append,
      build_emit_block child i, build_emit_children rest i]
  | none :: rest, i => by
    rw [buildMdChildren, emitChildren, build_emit_children rest i]

end

theorem mem_emitChildren_of_getElem :
    ∀ (cs : List (Option BlockEntity)) (j : Nat) (child : BlockEntity) (i : Nat)
      (x : Nat × String), cs[j]? = some (some child) → x ∈ emitBlock child i →
      x ∈ emitChildren cs i
  | [], j, child, i, x, h, _ => by simp at h
  | c :: rest, 0, child, i, x, h, hx => by
    rw [List.getElem?_cons_zero, Option.some_inj] at h
    subst h
    rw [emitChildren]
    exact List.mem_append_left _ hx
  | c :: rest, j + 1, child, i, x, h, hx => by
    rw [List.getElem?_cons_succ] at h
    have ih := mem_emitChildren_of_getElem rest j child i x h hx
    cases c with
    | some c0 =>
      rw [emitChildren]
      exact List.mem_append_right _ ih
    | none =>
      rw [emitChildren]
      exact ih

theorem emit_of_getNode : ∀ (p : List Nat) (b n : BlockEntity) (i : Nat),
    getNode b p = some n → n.content.length > 0 →
    (i + depthNonEmpty b p, n.content) ∈ emitBlock b i
  | [], b, n, i, h, hn => by
    rw [getNode, Option.some_inj] at h
    subst h
    rw [depthNonEmpty, Nat.add_zero]
    cases b with
    | mk content children =>
      rw [emitBlock]
      rw [content_mk] at hn
      rw [if_pos hn]
      exact List.mem_append_left _ (List.mem_singleton.mpr rfl)
  | j :: p, b, n, i, h, hn => by
    cases b with
    | mk content children =>
      rw [getNode, children_mk] at h
      rw [depthNonEmpty, content_mk, children_mk]
      cases hget : children[j]? with
      | none => rw [hget] at h; exact absurd h (by simp)
      | some oc =>
        cases oc with
        | none => rw [hget] at h; exact absurd h (by simp)
        | some child =>
          rw [hget] at h
          have ih := emit_of_getNode p child n
            (if content.length > 0 then i + 1 else i) h hn
          have hmem := mem_emitChildren_of_getElem children j child
            (if content.length > 0 then i + 1 else i) _ hget ih
          rw [emitBlock]
          refine List.mem_append_right _ ?_
          have harith : i + ((if content.length > 0 then 1 else 0) +
              depthNonEmpty child p) =
              (if content.length > 0 then i + 1 else i) + depthNonEmpty child p := by
            by_cases hl : content.length > 0 <;> (simp [hl]; try omega)
          rw [harith]
          exact hmem

mutual

theorem emit_sound_block : ∀ (b : BlockEntity) (i : Nat) (x : Nat × String),
    x ∈ emitBlock b i → ∃ p n, getNode b p = some n ∧ n.content.length > 0 ∧
      x = (i + depthNonEmpty b p, n.content)
  | .mk content children, i, x, hx => by
    rw [emitBlock] at hx
    rcases List.mem_append.mp hx with h1 | h2
    · by_cases hl : content.length > 0
      · rw [if_pos hl] at h1
        rw [List.mem_singleton] at h1
        exact ⟨[], .mk content children, rfl, by rw [content_mk]; exact hl,
          by rw [h1, depthNonEmpty, Nat.add_zero, content_mk]⟩
      · rw [if_neg hl] at h1
        simp at h1
    · obtain ⟨j, b', p, n, hj, hget, hn, hx'⟩ :=
        emit_sound_children children (if content.length > 0 then i + 1 else i) x h2
      refine ⟨j :: p, n, ?_, hn, ?_⟩
      · rw [getNode, children_mk, hj]
        exact hget
      · rw [depthNonEmpty, content_mk, children_mk, hj, hx']
        by_cases hl : content.length > 0 <;> (simp [hl]; try omega)

theorem emit_sound_children : ∀ (cs : List (Option BlockEntity)) (i : Nat)
    (x : Nat × String), x ∈ emitChildren cs i →
    ∃ (j : Nat) (b : BlockEntity) (p : List Nat) (n : BlockEntity),
      cs[j]? = some (some b) ∧ getNode b p = some n ∧
      n.content.length > 0 ∧ x = (i + depthNonEmpty b p, n.content)
  | [], i, x, hx => by rw [emitChildren] at hx; simp at hx
  | some child :: rest, i, x, hx => by
    rw [emitChildren] at hx
    rcases List.mem_append.mp hx with h1 | h2
    · obtain ⟨p, n, hg, hn, hx'⟩ := emit_sound_block child i x h1
      exact ⟨0, child, p, n, List.getElem?_cons_zero, hg, hn, hx'⟩
    · obtain ⟨j, b, p, n, hj, hg, hn, hx'⟩ := emit_sound_children rest i x h2
      exact ⟨j + 1, b, p, n, by rw [List.getElem?_cons_succ]; exact hj, hg, hn, hx'⟩
  | none :: rest, i, x, hx => by
    rw [emitChildren] at hx
    obtain ⟨j, b, p, n, hj, hg, hn, hx'⟩ := emit_sound_children rest i x hx
    exact ⟨j + 1, b, p, n, by rw [List.getElem?_cons_succ]; exact hj, hg, hn, hx'⟩

end

theorem leadsWith_iff : ∀ (p s : List Char),
    leadsWith p s = true ↔ ∃ t, s = p ++ t
  | [], s => by simp [leadsWith]
  | p :: ps, [] => by simp [leadsWith]
  | p :: ps, c :: cs => by
    rw [leadsWith, Bool.and_eq_true, beq_iff_eq, leadsWith_iff ps cs]
    constructor
    · rintro ⟨rfl, t, rfl⟩
      exact ⟨t, rfl⟩
    · rintro ⟨t, h⟩
      rw [List.cons_append] at h
      injection h with h1 h2
      exact ⟨h1.symm, t, h2⟩

theorem removeOnce_of_not_contains : ∀ (pat s : List Char),
    containsSeq pat s = false → removeOnceAux pat s = s
  | _, [] => fun _ => rfl
  | pat, c :: s => by
    intro h
    rw [containsSeq, Bool.or_eq_false_iff] at h
    rw [removeOnceAux, if_neg (by rw [h.1]; exact Bool.false_ne_true),
      removeOnce_of_not_contains pat s h.2]

theorem removeOnce_of_contains : ∀ (pat s : List Char), pat ≠ [] →
    containsSeq pat s = true →
    ∃ a b, s = a ++ pat ++ b ∧ removeOnceAux pat s = a ++ b ∧
      ∀ a2 b2, s = a2 ++ pat ++ b2 → a.length ≤ a2.length
  | pat, [], hne => by
    intro h
    rw [containsSeq] at h
    exact absurd ((leadsWith_iff pat []).mp h) (by
      rintro ⟨t, ht⟩
      exact hne (List.append_eq_nil.mp ht.symm).1)
  | pat, c :: s, hne => by
    intro h
    by_cases hl : leadsWith pat (c :: s) = true
    · obtain ⟨t, ht⟩ := (leadsWith_iff pat (c :: s)).mp hl
      refine ⟨[], t, by rw [List.nil_append]; exact ht, ?_, fun a2 b2 _ => Nat.zero_le _⟩
      rw [removeOnceAux, if_pos hl, ht, List.drop_left, List.nil_append]
    · rw [containsSeq, Bool.or_eq_true] at h
      rcases h with h | h
      · exact absurd h hl
      · obtain ⟨a, b, hs, hrem, hmin⟩ := removeOnce_of_contains pat s hne h
        refine ⟨c :: a, b, by rw [List.cons_append, List.cons_append, ← hs], ?_, ?_⟩
        · rw [removeOnceAux, if_neg hl, hrem, List.cons_append]
        · rintro a2 b2 h2
          cases a2 with
          | nil =>
            exfalso
            apply hl
            rw [List.nil_append] at h2
            exact (leadsWith_iff pat (c :: s)).mpr ⟨b2, h2⟩
          | cons c2 a2 =>
            rw [List.cons_append, List.cons_append] at h2
            injection h2 with h21 h22
            exact Nat.succ_le_succ (hmin a2 b2 h22)

theorem data_append_comma (a b : String) :
    (a ++ "," ++ b).data = a.data ++ ',' :: b.data := by
  rw [String.data_append, String.data_append, List.append_assoc]
  rfl

theorem searchComma_append (a b : String) (h : ∀ c ∈ a.data, ¬ c = ',') :
    searchComma (a ++ "," ++ b) = (a.data.length : Int) := by
  unfold searchComma
  rw [data_append_comma, List.findIdx?_append]
  have h1 : a.data.findIdx? (fun c => c == ',') = none := by
    rw [List.findIdx?_eq_none_iff]
    intro x hx
    simpa using h x hx
  have h2 : List.findIdx? (fun c => c == ',') (',' :: b.data) = some 0 := by
    simp [List.findIdx?]
  rw [h1, h2, Option.none_or]
  simp

theorem jsSlice_natCast (s : String) (st en : Nat) (h1 : st ≤ en)
    (h2 : en ≤ s.data.length) :
    jsSlice s (st : Int) (en : Int) = String.mk ((s.data.drop st).take (en - st)) := by
  have ha : (if (st : Int) < 0 then max ((s.data.length : Int) + st) 0
      else min (st : Int) (s.data.length : Int)).toNat = st := by
    rw [if_neg (by omega)]
    omega
  have hb : (if (en : Int) < 0 then max ((s.data.length : Int) + en) 0
      else min (en : Int) (s.data.length : Int)).toNat = en := by
    rw [if_neg (by omega)]
    omega
  simp only [jsSlice]
  rw [ha, hb]

theorem traverseOption_total {α β : Type} (f : α → Option β) :
    ∀ (l : List α), (∀ x ∈ l, (f x).isSome = true) →
    ∃ ys, traverseOption f l = some ys
  | [], _ => ⟨[], rfl⟩
  | x :: xs, h => by
    obtain ⟨ys, hys⟩ := traverseOption_total f xs
      (fun y hy => h y (List.mem_cons_of_mem x hy))
    obtain ⟨y, hy⟩ := Option.isSome_iff_exists.mp (h x (List.mem_cons_self x xs))
    rw [traverseOption, hy, hys]
    exact ⟨y :: ys, rfl⟩

theorem reformatDate_wellFormed (a b : String) (h : ∀ c ∈ a.data, ¬ c = ',')
    (h2 : 2 ≤ a.data.length) :
    reformatDate (a ++ "," ++ b) =
      String.mk (a.data.take (a.data.length - 2)) ++ "," ++ b := by
  have hlen : (a ++ "," ++ b).data.length = a.data.length + (b.data.length + 1) := by
    rw [data_append_comma, List.length_append, List.length_cons]
  simp only [reformatDate]
  rw [searchComma_append a b h]
  have e1 : (a.data.length : Int) - 2 = ((a.data.length - 2 : Nat) : Int) := by omega
  rw [e1, show (0 : Int) = ((0 : Nat) : Int) from rfl]
  rw [jsSlice_natCast (a ++ "," ++ b) 0 (a.data.length - 2) (by omega) (by omega)]
  rw [jsSlice_natCast (a ++ "," ++ b) a.data.length ((a ++ "," ++ b).data.length)
    (by omega) (by omega)]
  rw [List.drop_zero, Nat.sub_zero]
  rw [data_append_comma, List.take_append_of_le_length (by omega)]
  rw [List.drop_left]
  have e2 : (a.data ++ ',' :: b.data).length - a.data.length = b.data.length + 1 := by
    rw [List.length_append, List.length_cons]
    omega
  have e3 : List.take (b.data.length + 1) (',' :: b.data) = ',' :: b.data :=
    List.take_of_length_le (by simp)
  rw [e2, e3, show String.mk (',' :: b.data) = "," ++ b from rfl, ← String.append_assoc]

theorem buildMd_some_eq (page : String) (pb : List BlockEntity)
    (refs : List LinkedReference) (today : Int) :
    buildMd page pb (some refs) today =
      match traverseOption (renderJournalGroup page)
          (sortJournals (refs.filter (journalFilter (startOfWeekMondayYYYYMMDD today)))) with
      | none => none
      | some sections =>
        some (String.intercalate "\n" (pb.map (fun block => buildMdBlock block 0))
          ++ "----\n" ++ "## Backlog\n" ++ String.intercalate "\n" sections) := rfl

theorem buildMd_c1_eval : buildMd "Page" c1Blocks (some c1Refs) 19724 =
    some "- A\n\n- B\n  - B1\n----\n## Backlog\n**January 2, 2024**\n- Task\n" := by
  rw [buildMd_some_eq]
  rw [show c1Refs.filter (journalFilter (startOfWeekMondayYYYYMMDD 19724)) = c1Refs from rfl]
  rw [show sortJournals c1Refs = c1Refs from by
    simp only [sortJournals, c1Refs, List.mergeSort_singleton]]
  decide

/-! Claims. -/

/-- C1, counterexample: on the end-to-end example of the spec the digest
is not the claimed string — rendered top-level blocks each end with a
newline and are joined with a further newline, so a blank line separates
"- A" from "- B", which the claimed output does not contain. The current
day 19724 (Tuesday 2024-01-02) makes the related group retained, as the
claim presupposes. -/
theorem claim1_counterexample : ¬ (buildMd "Page" c1Blocks (some c1Refs) 19724 =
    some "- A\n- B\n  - B1\n----\n## Backlog\n**January 2, 2024**\n- Task\n") := by
  rw [buildMd_c1_eval]
  decide

/-- C1, amended: on the end-to-end example the digest is exactly
"- A\n\n- B\n  - B1\n----\n## Backlog\n**January 2, 2024**\n- Task\n",
i.e. with one blank line between the two rendered top-level blocks. -/
theorem claim1_exact_output : buildMd "Page" c1Blocks (some c1Refs) 19724 =
    some "- A\n\n- B\n  - B1\n----\n## Backlog\n**January 2, 2024**\n- Task\n" :=
  buildMd_c1_eval

/-- C2, counterexample: with two occurrences of "[[P]]" in the text, the
cleanup removes only the first one — the result still contains "[[P]]",
so not every occurrence is removed. -/
theorem claim2_counterexample :
    cleanupContent "P" "a [[P]] b [[P]]" = "a  b [[P]]" ∧
    containsSeq ("[[" ++ "P" ++ "]]").data (cleanupContent "P" "a [[P]] b [[P]]").data
      = true := ⟨by decide, by decide⟩

/-- C2, amended: the cleanup removes only the first occurrence of
"#[[pageId]]" and then the first occurrence of "[[pageId]]" (exact,
case-sensitive, literal match), then trims; `removeOnceAux` (the core of
the embedded `replace`) leaves a string without an occurrence unchanged
and otherwise removes exactly the leftmost occurrence. The spec's own
single-occurrence example still holds. -/
theorem claim2_first_occurrence :
    (∀ (pat s : List Char), pat ≠ [] →
      (containsSeq pat s = false → removeOnceAux pat s = s) ∧
      (containsSeq pat s = true → ∃ a b, s = a ++ pat ++ b ∧
        removeOnceAux pat s = a ++ b ∧
        ∀ a2 b2, s = a2 ++ pat ++ b2 → a.length ≤ a2.length)) ∧
    cleanupContent "Foo" "Hello #[[Foo]] world [[Foo]] !" = "Hello  world  !" :=
  ⟨fun pat s hne => ⟨removeOnce_of_not_contains pat s, removeOnce_of_contains pat s hne⟩,
    by decide⟩

/-- C2, witness: the first-occurrence characterization instantiated on a
concrete string containing the pattern. -/
theorem claim2_witness :
    ∃ a b, "x [[P]]".data = a ++ "[[P]]".data ++ b ∧
      removeOnceAux "[[P]]".data "x [[P]]".data = a ++ b ∧
      ∀ a2 b2, "x [[P]]".data = a2 ++ "[[P]]".data ++ b2 → a.length ≤ a2.length :=
  (claim2_first_occurrence.1 "[[P]]".data "x [[P]]".data (by decide)).2 (by decide)

/-- C3, counterexample: a single block whose content contains a newline
renders as two lines but counts as one non-empty node, so the line-count
property fails for arbitrary content strings. -/
theorem claim3_counterexample :
    ¬ (countLines (buildMdBlock (BlockEntity.mk "a\nb" []) 0) =
      countNonEmpty (BlockEntity.mk "a\nb" [])) := by decide

/-- C3, amended: for every tree none of whose content strings contains a
newline character, the number of lines (newline characters) in the
rendered output equals the number of non-placeholder nodes with non-empty
content. -/
theorem claim3_line_count : ∀ (b : BlockEntity) (i : Nat), noNewlines b = true →
    countLines (buildMdBlock b i) = countNonEmpty b :=
  fun b i h => countLines_block b i h

/-- C3, witness: the amended line-count property on a concrete tree. -/
theorem claim3_witness :
    countLines (buildMdBlock (BlockEntity.mk "B" [some (BlockEntity.mk "B1" []), none]) 0) =
      countNonEmpty (BlockEntity.mk "B" [some (BlockEntity.mk "B1" []), none]) :=
  claim3_line_count (BlockEntity.mk "B" [some (BlockEntity.mk "B1" []), none]) 0 (by decide)

/-- C4: a block with empty content emits no line and renders its children
at the same indent level; a block with non-empty content emits exactly
one line of `2 * indent` spaces, "- ", the content and a newline, and
renders its children at `indent + 1`; the whole output is the
concatenation of the emitted lines, and a line is emitted at indent
`i + d` exactly for the nodes with non-empty content reachable through
`d`-many non-empty-content proper ancestors (placeholder children are
skipped). -/
theorem claim4_renderer_contract :
    (∀ (cs : List (Option BlockEntity)) (i : Nat),
      buildMdBlock (BlockEntity.mk "" cs) i = buildMdChildren cs i) ∧
    (∀ (t : String) (cs : List (Option BlockEntity)) (i : Nat), t.length > 0 →
      buildMdBlock (BlockEntity.mk t cs) i = mdLine i t ++ buildMdChildren cs (i + 1)) ∧
    (∀ (b : BlockEntity) (i : Nat),
      buildMdBlock b i = joinStr ((emitBlock b i).map (fun q => mdLine q.1 q.2))) ∧
    (∀ (b : BlockEntity) (p : List Nat) (n : BlockEntity) (i : Nat),
      getNode b p = some n → n.content.length > 0 →
      (i + depthNonEmpty b p, n.content) ∈ emitBlock b i) ∧
    (∀ (b : BlockEntity) (i : Nat) (x : Nat × String), x ∈ emitBlock b i →
      ∃ p n, getNode b p = some n ∧ n.content.length > 0 ∧
        x = (i + depthNonEmpty b p, n.content)) := by
  refine ⟨?_, ?_, build_emit_block, fun b p n i h hn => emit_of_getNode p b n i h hn,
    emit_sound_block⟩
  · intro cs i
    rw [buildMdBlock, if_neg (by decide), if_neg (by decide), String.empty_append]
  · intro t cs i ht
    rw [buildMdBlock, if_pos ht, if_pos ht]

/-- C4, witness: the line for the child "B1" of "B" is emitted at depth
one, i.e. at indent `0 + depthNonEmpty b [0]`. -/
theorem claim4_witness :
    (0 + depthNonEmpty (BlockEntity.mk "B" [some (BlockEntity.mk "B1" [])]) [0],
      (BlockEntity.mk "B1" []).content) ∈
      emitBlock (BlockEntity.mk "B" [some (BlockEntity.mk "B1" [])]) 0 :=
  claim4_renderer_contract.2.2.2.1 (BlockEntity.mk "B" [some (BlockEntity.mk "B1" [])])
    [0] (BlockEntity.mk "B1" []) 0 rfl (by decide)

/-- C5: an entry survives the filter step iff it is in the input, its
page is present, its `journalDay` is present and non-zero, and the
`journalDay` is at least the week-start integer; every other entry is
dropped (the filter is a total Boolean predicate, so nothing is
raised). -/
theorem claim5_filter_iff : ∀ (refs : List LinkedReference) (start : Int)
    (e : LinkedReference),
    e ∈ refs.filter (journalFilter start) ↔
      e ∈ refs ∧ ∃ p d, e.1 = some p ∧ p.journalDay = some d ∧ d ≠ 0 ∧ start ≤ d := by
  intro refs start e
  rw [List.mem_filter]
  have hiff : journalFilter start e = true ↔
      ∃ p d, e.1 = some p ∧ p.journalDay = some d ∧ d ≠ 0 ∧ start ≤ d := by
    rcases e with ⟨op, blocks⟩
    cases op with
    | none => simp [journalFilter]
    | some p =>
      cases hjd : p.journalDay with
      | none => simp [journalFilter, hjd]
      | some d =>
        by_cases hd : d = 0
        · simp [journalFilter, hjd, hd]
        · simp [journalFilter, hjd, hd, ge_iff_le]
  rw [hiff]

/-- C5, witness: the filter characterization instantiated on a concrete
entry that is retained. -/
theorem claim5_witness :
    (some (PageEntity.mk "d" (some 20240102)), ([] : List BlockEntity)) ∈
      List.filter (journalFilter 20240101)
        [(some (PageEntity.mk "d" (some 20240102)), ([] : List BlockEntity))] :=
  (claim5_filter_iff [(some (PageEntity.mk "d" (some 20240102)), [])] 20240101
    (some (PageEntity.mk "d" (some 20240102)), [])).mpr
    ⟨List.mem_singleton.mpr rfl, PageEntity.mk "d" (some 20240102), 20240102, rfl, rfl,
      by decide, by decide⟩

/-- C6: the sort step is a permutation of the filtered entries, orders
them so that `journalDayOrZero` (the journalDay, with a missing one read
as 0) is non-increasing, and is stable: for every key value the entries
with that key keep their original relative order. For two retained
entries this is exactly: A comes before B iff A's journalDay is greater,
or the journalDays are equal and A came first originally. -/
theorem claim6_sort_spec : ∀ (l : List LinkedReference),
    List.Perm (sortJournals l) l ∧
    List.Pairwise (fun a b => journalDayOrZero b ≤ journalDayOrZero a) (sortJournals l) ∧
    ∀ k : Int, (sortJournals l).filter (fun e => decide (journalDayOrZero e = k)) =
      l.filter (fun e => decide (journalDayOrZero e = k)) := by
  intro l
  have htrans : ∀ (a b c : LinkedReference),
      decide (journalDayOrZero b ≤ journalDayOrZero a) = true →
      decide (journalDayOrZero c ≤ journalDayOrZero b) = true →
      decide (journalDayOrZero c ≤ journalDayOrZero a) = true := by
    intro a b c hab hbc
    rw [decide_eq_true_iff] at hab hbc ⊢
    exact le_trans hbc hab
  have htotal : ∀ (a b : LinkedReference),
      (decide (journalDayOrZero b ≤ journalDayOrZero a) ||
        decide (journalDayOrZero a ≤ journalDayOrZero b)) = true := by
    intro a b
    rcases Int.le_total (journalDayOrZero b) (journalDayOrZero a) with h | h
    · simp [h]
    · simp [h]
  refine ⟨List.mergeSort_perm l _, ?_, ?_⟩
  · exact (List.sorted_mergeSort htrans htotal l).imp (fun hab => decide_eq_true_iff.mp hab)
  · intro k
    have hsubl : (l.filter (fun e => decide (journalDayOrZero e = k))).Sublist l :=
      List.filter_sublist l
    have hpwf : (l.filter (fun e => decide (journalDayOrZero e = k))).Pairwise
        (fun a b => decide (journalDayOrZero b ≤ journalDayOrZero a) = true) := by
      apply List.pairwise_of_forall_mem_list
      intro a ha b hb
      rw [List.mem_filter, decide_eq_true_iff] at ha hb
      rw [decide_eq_true_iff, ha.2, hb.2]
    have hstab := List.sublist_mergeSort htrans htotal hpwf hsubl
    have hperm : ((sortJournals l).filter (fun e => decide (journalDayOrZero e = k))).Perm
        (l.filter (fun e => decide (journalDayOrZero e = k))) :=
      (List.mergeSort_perm l _).filter _
    have hsub2 : (l.filter (fun e => decide (journalDayOrZero e = k))).Sublist
        ((sortJournals l).filter (fun e => decide (journalDayOrZero e = k))) := by
      have h0 : (l.filter (fun e => decide (journalDayOrZero e = k))).filter
          (fun e => decide (journalDayOrZero e = k)) =
          l.filter (fun e => decide (journalDayOrZero e = k)) :=
        List.filter_eq_self.mpr (fun a ha => (List.mem_filter.mp ha).2)
      have h1 := List.Sublist.filter (fun e => decide (journalDayOrZero e = k)) hstab
      rw [h0] at h1
      exact h1
    exact (hsub2.eq_of_length hperm.length_eq.symm).symm

/-- C7: the week-start computation subtracts `(dayOfWeek + 6) % 7` days
(so 2 on a Wednesday, 0 on a Monday, 6 on a Sunday) and encodes the
resulting date as `parseInt` of the year concatenated with the
zero-padded month and day; concrete instances: Wednesday 2023-10-25 gives
20231023, Tuesday 2024-01-02 gives 20240101 (month and day zero-padded),
Sunday 2023-12-31 gives 20231225. -/
theorem claim7_week_start :
    (∀ today : Int,
      daysToSubtract today = (jsGetDay today + 6) % 7 ∧
      (jsGetDay today = 3 → daysToSubtract today = 2) ∧
      (jsGetDay today = 1 → daysToSubtract today = 0) ∧
      (jsGetDay today = 0 → daysToSubtract today = 6) ∧
      startOfWeekMondayYYYYMMDD today =
        jsParseInt (toString (jsGetFullYear (today - daysToSubtract today)) ++
          padStart2 (toString (jsGetMonth (today - daysToSubtract today) + 1)) ++
          padStart2 (toString (jsGetDate (today - daysToSubtract today))))) ∧
    jsGetDay 19655 = 3 ∧ startOfWeekMondayYYYYMMDD 19655 = 20231023 ∧
    jsGetDay 19724 = 2 ∧ startOfWeekMondayYYYYMMDD 19724 = 20240101 ∧
    jsGetDay 19722 = 0 ∧ startOfWeekMondayYYYYMMDD 19722 = 20231225 := by
  refine ⟨?_, by decide, by decide, by decide, by decide, by decide, by decide⟩
  intro today
  refine ⟨rfl, ?_, ?_, ?_, rfl⟩
  · intro h
    rw [daysToSubtract, h]
    decide
  · intro h
    rw [daysToSubtract, h]
    decide
  · intro h
    rw [daysToSubtract, h]
    decide

/-- C7, witness: on the concrete Wednesday 2023-10-25 (day 19655) the
computation subtracts 2 days. -/
theorem claim7_witness : daysToSubtract 19655 = 2 :=
  (claim7_week_start.1 19655).2.1 (by decide)

/-- C8: on a well-formed name `a ++ "," ++ b` (no comma in `a`, at least
two characters before the comma) the reformat drops the two characters
before the first comma; on the spec's example it yields
"October 26, 2023"; on malformed input it does not fail but silently
returns a truncated or garbled string: "2024" (no comma) gives "24" and
", 2023" (comma at position 0) gives ", 20, 2023". -/
theorem claim8_reformat :
    (∀ a b : String, (∀ c ∈ a.data, ¬ c = ',') → 2 ≤ a.data.length →
      reformatDate (a ++ "," ++ b) =
        String.mk (a.data.take (a.data.length - 2)) ++ "," ++ b) ∧
    reformatDate "October 26th, 2023" = "October 26, 2023" ∧
    reformatDate "2024" = "24" ∧
    reformatDate ", 2023" = ", 20, 2023" :=
  ⟨reformatDate_wellFormed, by decide, by decide, by decide⟩

/-- C8, witness: the well-formed-input part instantiated on a concrete
name. -/
theorem claim8_witness :
    reformatDate ("ab" ++ "," ++ "c") =
      String.mk ("ab".data.take ("ab".data.length - 2)) ++ "," ++ "c" :=
  claim8_reformat.1 "ab" "c" (by decide) (by decide)

/-- C9: the renderer output is empty or ends in a newline; hence when two
blocks both render non-empty, joining the two renderings with a single
newline puts a blank line (two consecutive newlines) between them. -/
theorem claim9_trailing_newline :
    (∀ (b : BlockEntity) (i : Nat),
      buildMdBlock b i = "" ∨ ∃ t, buildMdBlock b i = t ++ "\n") ∧
    (∀ (a b : BlockEntity) (i j : Nat),
      buildMdBlock a i ≠ "" → buildMdBlock b j ≠ "" →
      ∃ t, buildMdBlock a i ++ "\n" ++ buildMdBlock b j =
        t ++ "\n\n" ++ buildMdBlock b j) := by
  refine ⟨endsNL_block, ?_⟩
  intro a b i j ha _hb
  rcases endsNL_block a i with h | ⟨t, ht⟩
  · exact absurd h ha
  · refine ⟨t, ?_⟩
    rw [ht, String.append_assoc t "\n" "\n"]
    rfl

/-- C9, witness: two concrete non-empty renderings joined with a newline
contain a blank line. -/
theorem claim9_witness :
    ∃ t, buildMdBlock (BlockEntity.mk "A" []) 0 ++ "\n" ++
      buildMdBlock (BlockEntity.mk "B" []) 0 =
      t ++ "\n\n" ++ buildMdBlock (BlockEntity.mk "B" []) 0 :=
  claim9_trailing_newline.2 (BlockEntity.mk "A" []) (BlockEntity.mk "B" []) 0 0
    (by decide) (by decide)

/-- C10: when the related-collection fetch yields null the digest build
produces no document (the map over the undefined filtered sequence
throws); when it yields an actual list — of any contents — a document is
always produced, because every entry surviving the filter has a present
page. -/
theorem claim10_null_fetch :
    (∀ (page : String) (pb : List BlockEntity) (today : Int),
      buildMd page pb none today = none) ∧
    (∀ (page : String) (pb : List BlockEntity) (refs : List LinkedReference)
      (today : Int), ∃ s, buildMd page pb (some refs) today = some s) := by
  constructor
  · intro page pb today
    rfl
  · intro page pb refs today
    have hall : ∀ e ∈ sortJournals
        (refs.filter (journalFilter (startOfWeekMondayYYYYMMDD today))),
        (renderJournalGroup page e).isSome = true := by
      intro e he
      rw [sortJournals] at he
      have he2 := List.mem_mergeSort.mp he
      have he3 := (List.mem_filter.mp he2).2
      rcases e with ⟨op, blocks⟩
      cases op with
      | none => simp [journalFilter] at he3
      | some p => simp [renderJournalGroup]
    obtain ⟨ys, hys⟩ := traverseOption_total (renderJournalGroup page) _ hall
    rw [buildMd_some_eq, hys]
    exact ⟨_, rfl⟩
